import Mathlib

/-!
Verification of the sollama retrieval-and-extraction pipeline.

This file gives a shallow embedding of the URL handling, content/metadata
extraction and the fetch/retry orchestration of `src/search.rs` and
`src/scraper.rs`, and proves the stated properties about them.

Rust strings are modelled as lists of characters (`Str`); all string
operations used by the code (`starts_with`, `contains`, `split`, `replace`,
`trim`, `split_whitespace`, `join`) are defined below, faithful to the
Rust standard library semantics on the inputs the program exercises.
-/

namespace Sollama

/-- Rust strings, modelled as lists of characters. -/
abbrev Str := List Char

/-- Embed a Lean string literal as a `Str`. -/
def strL (s : String) : Str := s.data

/-- Rust `str::starts_with` on character lists. -/
def startsWithS : Str → Str → Bool
  | [], _ => true
  | _ :: _, [] => false
  | p :: ps, c :: cs => p == c && startsWithS ps cs

/-- Rust `str::contains` (substring containment) on character lists. -/
def containsSub (pat : Str) : Str → Bool
  | [] => startsWithS pat []
  | c :: cs => startsWithS pat (c :: cs) || containsSub pat cs

/-- Rust `str::split(sep: char)`: splits at every occurrence of `sep`,
keeping empty segments, and yields one (possibly empty) segment even for
the empty string. -/
def splitOnChar (sep : Char) : Str → List Str
  | [] => [[]]
  | c :: cs =>
      match splitOnChar sep cs with
      | [] => [[]]
      | r :: rs => if c = sep then [] :: r :: rs else (c :: r) :: rs

/-- Fuel-driven worker for `replaceSub`; fuel `s.length` always suffices
because every step consumes at least one character of `s`. -/
def replaceSubFuel (pat rep : Str) : Nat → Str → Str
  | 0, s => s
  | _ + 1, [] => []
  | fuel + 1, c :: cs =>
      if startsWithS pat (c :: cs) && !pat.isEmpty then
        rep ++ replaceSubFuel pat rep fuel ((c :: cs).drop pat.length)
      else
        c :: replaceSubFuel pat rep fuel cs

/-- Rust `str::replace(pat, to)`: replace every non-overlapping occurrence
of `pat`, scanning left to right.  (The program only ever calls this with
the non-empty patterns "/url?" and "q=".) -/
def replaceSub (pat rep s : Str) : Str := replaceSubFuel pat rep s.length s

/-- One hexadecimal digit, as used by percent-decoding. -/
def hexDigit (c : Char) : Option Nat :=
  if '0' ≤ c ∧ c ≤ '9' then some (c.toNat - '0'.toNat)
  else if 'a' ≤ c ∧ c ≤ 'f' then some (c.toNat - 'a'.toNat + 10)
  else if 'A' ≤ c ∧ c ≤ 'F' then some (c.toNat - 'A'.toNat + 10)
  else none

/-- Modelled from the `urlencoding` crate (a dependency, not in `src/`):
`urlencoding::decode`.  A `%` followed by two hex digits decodes to that
byte; a `%` not followed by two hex digits is kept literally; the result
must be valid UTF-8, otherwise the call fails.  The model is restricted
to ASCII outputs: a decoded byte ≥ 128 (which in the crate may combine
into a multi-byte UTF-8 character or fail) is conservatively rejected. -/
def percentDecode : Str → Option Str
  | [] => some []
  | '%' :: a :: b :: rest =>
      match hexDigit a, hexDigit b with
      | some hi, some lo =>
          if 16 * hi + lo < 128 then
            (percentDecode rest).map (fun t => Char.ofNat (16 * hi + lo) :: t)
          else none
      | _, _ => (percentDecode (a :: b :: rest)).map (fun t => '%' :: t)
  | c :: rest => (percentDecode rest).map (fun t => c :: t)

/-- `SearchEngine::clean_google_url` (src/search.rs): turn a raw href into
an absolute URL.  A href containing "/url?" has the wrapper stripped, is
split on the query separator, and the first segment starting with "q=" is
percent-decoded (a decode failure aborts with `none` via the `?`
operator); otherwise a href beginning with "http" is returned unchanged;
anything else yields `none`. -/
def clean_google_url (url : Str) : Option Str :=
  if startsWithS (strL "/url?") url || containsSub (strL "/url?") url then
    match (splitOnChar '&' (replaceSub (strL "/url?") [] url)).find?
        (fun q => startsWithS (strL "q=") q) with
    | some query => percentDecode (replaceSub (strL "q=") [] query)
    | none => if startsWithS (strL "http") url then some url else none
  else if startsWithS (strL "http") url then some url else none

/-- The fixed denylist of `SearchEngine::is_valid_url` (src/search.rs). -/
def invalid_patterns : List Str :=
  [strL "google.com/search", strL "google.com/url", strL "google.com/imgres",
   strL "accounts.google", strL "webcache.googleusercontent",
   strL "/preferences", strL "/settings", strL "/advanced_search",
   strL "/setprefs", strL "javascript:"]

/-- `SearchEngine::is_valid_url` (src/search.rs). -/
def is_valid_url (url : Str) : Bool :=
  startsWithS (strL "https://") url &&
    !(invalid_patterns.any (fun p => containsSub p url)) &&
    !(containsSub (strL "&") url)

/-- Rust `str::trim`: strip leading and trailing whitespace. -/
def trimS (s : Str) : Str :=
  ((s.dropWhile Char.isWhitespace).reverse.dropWhile Char.isWhitespace).reverse

/-- Rust `Vec::join(sep)` / `[T]::join`: concatenate with a separator
between consecutive elements. -/
def joinWith (sep : Str) : List Str → Str
  | [] => []
  | [x] => x
  | x :: y :: rest => x ++ sep ++ joinWith sep (y :: rest)

/-- Worker for `splitWS`: `acc` holds the characters of the current word
in reverse order. -/
def splitWSAux : Str → Str → List Str
  | [], acc => if acc.isEmpty then [] else [acc.reverse]
  | c :: cs, acc =>
      if c.isWhitespace then
        if acc.isEmpty then splitWSAux cs [] else acc.reverse :: splitWSAux cs []
      else splitWSAux cs (c :: acc)

/-- Rust `str::split_whitespace`: the maximal non-empty runs of
non-whitespace characters. -/
def splitWS (s : Str) : List Str := splitWSAux s []

/-- The lexicographic order on `Str`, as Rust's `Ord` for `String`
(byte-wise comparison; UTF-8 byte order agrees with scalar-value order). -/
def lexLe : Str → Str → Bool
  | [], _ => true
  | _ :: _, [] => false
  | x :: xs, y :: ys => if x < y then true else if y < x then false else lexLe xs ys

/-- The lexicographic order as a decidable relation, for sorting. -/
def strLe (a b : Str) : Prop := lexLe a b = true

instance : DecidableRel strLe := fun a b => instDecidableEqBool (lexLe a b) true

/-- Rust `Vec::dedup`: remove consecutive repeated elements, keeping one
element of each run. -/
def dedupAdj : List Str → List Str
  | [] => []
  | [x] => [x]
  | x :: y :: rest => if x = y then dedupAdj (y :: rest) else x :: dedupAdj (y :: rest)

/-- The per-pattern candidate collection of `SearchEngine::extract_urls`
(src/search.rs).  A search-results document is modelled by the list, per
selector pattern, of the `href` attribute values of the links the pattern
selects (links without an `href` contribute nothing, as the code skips
them).  Each href is cleaned by `clean_google_url` and filtered by
`is_valid_url`, and the per-pattern lists are concatenated. -/
def candidate_urls (docHrefs : List (List Str)) : List Str :=
  (docHrefs.map (fun hrefs =>
    hrefs.filterMap (fun href =>
      match clean_google_url href with
      | some u => if is_valid_url u then some u else none
      | none => none))).flatten

/-- `SearchEngine::extract_urls` (src/search.rs): collect candidates over
all selector patterns, then `sort()` and `dedup()`.  Rust's stable sort is
modelled by insertion sort: under the total, antisymmetric order `strLe`
equal keys are identical strings, so every correct sort produces the same
output list. -/
def extract_urls (docHrefs : List (List Str)) : List Str :=
  dedupAdj (List.insertionSort strLe (candidate_urls docHrefs))

/-- The error type of the program (src/lib.rs, `ScraperError`).  The
payload of a transport error is abstracted to a number; extraction errors
carry their message. -/
inductive ScraperError where
  | RequestError : Nat → ScraperError
  | RateLimitError : ScraperError
  | ExtractionError : Str → ScraperError
  | LLMError : Str → ScraperError
  | SearchError : Str → ScraperError
deriving DecidableEq

instance {ε α : Type} [DecidableEq ε] [DecidableEq α] : DecidableEq (Except ε α) := fun a b =>
  match a, b with
  | Except.ok x, Except.ok y =>
      if h : x = y then Decidable.isTrue (by rw [h])
      else Decidable.isFalse (fun hc => h (Except.ok.inj hc))
  | Except.error e, Except.error f =>
      if h : e = f then Decidable.isTrue (by rw [h])
      else Decidable.isFalse (fun hc => h (Except.error.inj hc))
  | Except.ok _, Except.error _ => Decidable.isFalse (fun hc => Except.noConfusion hc)
  | Except.error _, Except.ok _ => Decidable.isFalse (fun hc => Except.noConfusion hc)

/-- Modelled from the spec: the output record declared in `src/types.rs`
(a module of this repository that is not under `src/`): url, content and
metadata; the capture timestamp is outside the model (real time). -/
structure ScrapedContent where
  url : Str
  content : Str
  metadata : List (Str × Str)
deriving DecidableEq

/-- Rust `char::is_ascii`: scalar value below 128. -/
def isAsciiC (c : Char) : Bool := c.toNat < 128

/-- `ContentScraper::clean_text` (src/scraper.rs): keep only characters
that are ASCII or whitespace, then `split_whitespace` and re-join with
single spaces. -/
def clean_text (t : Str) : Str :=
  joinWith (strL " ") (splitWS (t.filter (fun c => isAsciiC c || c.isWhitespace)))

/-- Defined from the spec's words, for comparison with `clean_text`
(src/scraper.rs): "drop blank lines, collapse internal whitespace in each
line to single spaces, rejoin with newline". -/
def cleanTextSpec (t : Str) : Str :=
  joinWith (strL "\n")
    (((splitOnChar '\n' t).map (fun line => joinWith (strL " ") (splitWS line))).filter
      (fun l => !l.isEmpty))

/-- `ContentScraper::extract_text_by_selector` (src/scraper.rs).  The
nodes a selector matches are modelled by the list of their text contents
(each node's `text()` fragments already joined with spaces, as the code
does per element): keep the non-blank ones, join with newlines, trim. -/
def extract_text_by_selector (nodeTexts : List Str) : Str :=
  trimS (joinWith (strL "\n") (nodeTexts.filter (fun s => !(trimS s).isEmpty)))

/-- `ContentScraper::extract_content` (src/scraper.rs): the document is
modelled by the list, in configured selector order, of the node-text
lists each selector matches.  The first selector whose extracted text is
non-empty wins and its text is cleaned; if none does, extraction fails. -/
def extract_content : List (List Str) → Except ScraperError Str
  | [] => Except.error (ScraperError.ExtractionError
      (strL "No content found with available selectors"))
  | sel :: rest =>
      let content := extract_text_by_selector sel
      if content.isEmpty then extract_content rest
      else Except.ok (clean_text content)

/-- `SearchEngine::extract_text` (src/search.rs): same first-match
iteration over its fixed selector list, but joining all node texts with
newlines without a per-node blank filter, testing the trimmed join, and
returning it trimmed (not `clean_text`-ed). -/
def extract_text : List (List Str) → Except ScraperError Str
  | [] => Except.error (ScraperError.ExtractionError (strL "No content found"))
  | nodeTexts :: rest =>
      let content := joinWith (strL "\n") nodeTexts
      if (trimS content).isEmpty then extract_text rest
      else Except.ok (trimS content)

/-- A node as seen by metadata extraction (src/scraper.rs): its optional
`content` attribute and its text fragments. -/
structure MNode where
  contentAttr : Option Str
  text : List Str
deriving DecidableEq

/-- `ContentScraper::extract_metadata_value` (src/scraper.rs): take the
first node the field's selector matches; prefer its `content` attribute;
otherwise its trimmed text, if non-blank. -/
def extract_metadata_value (nodes : List MNode) : Option Str :=
  match nodes with
  | [] => none
  | el :: _ =>
      match el.contentAttr with
      | some c => some c
      | none =>
          let t := trimS (joinWith (strL " ") el.text)
          if t.isEmpty then none else some t

/-- `ContentScraper::extract_metadata` (src/scraper.rs): one entry per
field whose value extraction yields something; fields are independent, so
the hash-map is modelled as an association list in field order. -/
def extract_metadata (fields : List (Str × List MNode)) : List (Str × Str) :=
  fields.filterMap (fun kv => (extract_metadata_value kv.2).map (fun v => (kv.1, v)))

/-- The terminal `Err` of `SearchEngine::fetch_content` (src/search.rs):
the last observed error, or the fallback when no attempt was made. -/
def retriesExhausted (lastError : Option ScraperError) : Except ScraperError ScrapedContent :=
  match lastError with
  | some e => Except.error e
  | none => Except.error (ScraperError.ExtractionError (strL "Max retries exceeded"))

/-- The retry loop of `SearchEngine::fetch_content` (src/search.rs).
`stub` gives the outcome of the i-th call to `try_fetch_content`
(attempts numbered from 1); `r` is the current value of `retries`; `fuel`
is the remaining loop budget (`maxR` iterations always suffice, and
`fetch_content` below starts with exactly that).  Returns the result
together with the number of attempts made from this point on and the
total seconds slept in backoff from this point on.  The code sleeps
`2^retries` seconds after a failure only while `retries < max_retries`. -/
def fetchLoop (stub : Nat → Except ScraperError ScrapedContent) (maxR : Nat) :
    Nat → Nat → Option ScraperError → Except ScraperError ScrapedContent × Nat × Nat
  | 0, _, lastError => (retriesExhausted lastError, 0, 0)
  | fuel + 1, r, lastError =>
      if r < maxR then
        match stub (r + 1) with
        | Except.ok c => (Except.ok c, 1, 0)
        | Except.error e =>
            let rest := fetchLoop stub maxR fuel (r + 1) (some e)
            (rest.1, rest.2.1 + 1, rest.2.2 + (if r + 1 < maxR then 2 ^ (r + 1) else 0))
      else (retriesExhausted lastError, 0, 0)

/-- `SearchEngine::fetch_content` (src/search.rs): run the retry loop
from `retries = 0` with no recorded error, for at most `maxR` attempts. -/
def fetch_content (stub : Nat → Except ScraperError ScrapedContent) (maxR : Nat) :
    Except ScraperError ScrapedContent × Nat × Nat :=
  fetchLoop stub maxR maxR 0 none

/-- Observable scheduling events of the fetch pipeline for one URL:
acquiring a rate-limiter permit, the `1/requests_per_second` pacing
sleep, the i-th HTTP GET attempt, and a backoff sleep of the given
number of seconds. -/
inductive Ev where
  | permit : Ev
  | pace : Ev
  | attempt : Nat → Ev
  | backoff : Nat → Ev
deriving DecidableEq

/-- The event trace of the retry loop of `SearchEngine::fetch_content`
(src/search.rs): each iteration attempts once and, on failure, sleeps
`2^retries` seconds while `retries < max_retries`.  `stub i` tells
whether the i-th attempt succeeds. -/
def retryTrace (stub : Nat → Bool) (maxR : Nat) : Nat → Nat → List Ev
  | 0, _ => []
  | fuel + 1, r =>
      if r < maxR then
        Ev.attempt (r + 1) ::
          (if stub (r + 1) then []
           else if r + 1 < maxR then
             Ev.backoff (2 ^ (r + 1)) :: retryTrace stub maxR fuel (r + 1)
           else retryTrace stub maxR fuel (r + 1))
      else []

/-- The event trace of `fetch_content` for one URL. -/
def fetchContentTrace (stub : Nat → Bool) (maxR : Nat) : List Ev :=
  retryTrace stub maxR maxR 0

/-- The per-URL event trace of `SearchEngine::fetch_all` (src/search.rs):
the spawned task acquires one permit, sleeps the pacing delay once, and
then runs `fetch_content`, whose retries sleep only the backoff. -/
def perUrlTrace (stub : Nat → Bool) (maxR : Nat) : List Ev :=
  Ev.permit :: Ev.pace :: fetchContentTrace stub maxR

/-- Whether an event is an HTTP GET attempt. -/
def isAttemptEv : Ev → Bool
  | Ev.attempt _ => true
  | _ => false

/-- The per-URL closure of `SearchEngine::fetch_all` (src/search.rs):
`fetch_content`'s success becomes `Some`, any error becomes `None`. -/
def fetchOne (results : Str → Except ScraperError ScrapedContent) (url : Str) :
    Option ScrapedContent :=
  match results url with
  | Except.ok c => some c
  | Except.error _ => none

/-- `SearchEngine::fetch_all` (src/search.rs): map the per-URL closure
over the URL list and keep the successes (`filter_map(|x| x)`); the whole
call returns `Ok`.  `results url` is the outcome of `fetch_content` for
that URL.  (The concurrent `buffer_unordered` completion order is
modelled as input order; the claims here are order-independent.) -/
def fetch_all (results : Str → Except ScraperError ScrapedContent) (urls : List Str) :
    Except ScraperError (List ScrapedContent) :=
  Except.ok ((urls.map (fetchOne results)).filterMap id)

end Sollama

namespace Sollama

-- Sanity examples (concrete evaluations of the embedding).
example : clean_google_url (strL "/url?q=https%3A%2F%2Fexample.com&sa=x")
    = some (strL "https://example.com") := by decide
example : clean_google_url (strL "https://example.com") = some (strL "https://example.com") := by
  decide
example : clean_google_url (strL "relative/path") = none := by decide
example : is_valid_url (strL "https://example.com") = true := by decide
example : is_valid_url (strL "http://example.com") = false := by decide
example : is_valid_url (strL "https://accounts.google.com/x") = false := by decide
example : is_valid_url (strL "https://example.com/a?x=1&y=2") = false := by decide
example : clean_text (strL "a\nb") = strL "a b" := by decide
example : cleanTextSpec (strL "a\nb") = strL "a\nb" := by decide
example : clean_text (strL "x  y\n\n zé!") = strL "x y z!" := by decide
example : extract_text_by_selector [strL "  ", strL ""] = [] := by decide
example : extract_content [[strL "  "], [strL "hello  world"]]
    = Except.ok (strL "hello world") := by decide
example : extract_content [[strL " "], [strL "\t"]]
    = Except.error (ScraperError.ExtractionError
        (strL "No content found with available selectors")) := by decide
example : extract_text [[strL " "], [strL "a", strL "b"]]
    = Except.ok (strL "a\nb") := by decide
example : extract_metadata [(strL "t", [MNode.mk (some (strL "v")) [strL "w"]])]
    = [(strL "t", strL "v")] := by decide
example : extract_metadata [(strL "t", [MNode.mk none [strL " w "]])]
    = [(strL "t", strL "w")] := by decide
example : extract_metadata [(strL "t", [MNode.mk (some []) []])]
    = [(strL "t", [])] := by decide
example : extract_urls [[strL "/url?q=https%3A%2F%2Fb.com&sa=x", strL "https://a.com"],
    [strL "https://a.com", strL "https://accounts.google.com/x"]]
    = [strL "https://a.com", strL "https://b.com"] := by decide
example :
    fetch_content (fun i => if i ≤ 2 then Except.error (ScraperError.RequestError i)
      else Except.ok (ScrapedContent.mk [] [] [])) 3
    = (Except.ok (ScrapedContent.mk [] [] []), 3, 6) := by decide
example :
    fetch_content (fun i => Except.error (ScraperError.RequestError i)) 3
    = (Except.error (ScraperError.RequestError 3), 3, 6) := by decide
example : fetch_content (fun _ => Except.error (ScraperError.RequestError 0)) 0
    = (Except.error (ScraperError.ExtractionError (strL "Max retries exceeded")), 0, 0) := by
  decide
example : perUrlTrace (fun _ => false) 2
    = [Ev.permit, Ev.pace, Ev.attempt 1, Ev.backoff 2, Ev.attempt 2] := by decide

/-! ### String lemmas -/

theorem startsWithS_iff (p s : Str) : startsWithS p s = true ↔ ∃ t, s = p ++ t := by
  induction p generalizing s with
  | nil => simp [startsWithS]
  | cons x xs ih =>
    cases s with
    | nil =>
      simp [startsWithS]
    | cons c cs =>
      simp only [startsWithS, Bool.and_eq_true, beq_iff_eq, ih, List.cons_append]
      constructor
      · rintro ⟨rfl, t, rfl⟩
        exact ⟨t, rfl⟩
      · rintro ⟨t, ht⟩
        injection ht with h1 h2
        exact ⟨h1.symm, t, h2⟩

theorem containsSub_iff (pat s : Str) : containsSub pat s = true ↔ ∃ a b, s = a ++ pat ++ b := by
  induction s with
  | nil =>
    cases pat with
    | nil => simp [containsSub, startsWithS]
    | cons p ps =>
      simp only [containsSub, startsWithS]
      constructor
      · intro h
        exact absurd h (by simp)
      · rintro ⟨a, b, h⟩
        exact absurd h.symm (by simp)
  | cons c cs ih =>
    simp only [containsSub, Bool.or_eq_true, ih, startsWithS_iff]
    constructor
    · rintro (⟨t, ht⟩ | ⟨a, b, h⟩)
      · exact ⟨[], t, by simpa using ht⟩
      · exact ⟨c :: a, b, by simp [h]⟩
    · rintro ⟨a, b, h⟩
      cases a with
      | nil =>
        exact Or.inl ⟨b, by simpa using h⟩
      | cons a0 arest =>
        injection h with h1 h2
        exact Or.inr ⟨arest, b, h2⟩

theorem startsWithS_false_of_containsSub_false {pat s : Str}
    (h : containsSub pat s = false) : startsWithS pat s = false := by
  cases s with
  | nil => simpa [containsSub] using h
  | cons c cs =>
    simp only [containsSub, Bool.or_eq_false_iff] at h
    exact h.1

/-! ### C4: clean_google_url -/

/-- C4: for every raw href, `clean_google_url` returns the percent-decoded
value of the first `q=` query parameter when the href contains a "/url?"
segment (and that parameter exists and decodes); the href unchanged when
it contains no "/url?" segment and begins with "http"; and `none` when it
contains no "/url?" segment and does not begin with "http" (relative or
unparseable links are dropped silently, never reported as errors). -/
theorem clean_google_url_spec :
    (∀ url q d, containsSub (strL "/url?") url = true →
      (splitOnChar '&' (replaceSub (strL "/url?") [] url)).find?
          (fun s => startsWithS (strL "q=") s) = some q →
      percentDecode (replaceSub (strL "q=") [] q) = some d →
      clean_google_url url = some d) ∧
    (∀ url, containsSub (strL "/url?") url = false →
      startsWithS (strL "http") url = true → clean_google_url url = some url) ∧
    (∀ url, containsSub (strL "/url?") url = false →
      startsWithS (strL "http") url = false → clean_google_url url = none) := by
  refine ⟨?_, ?_, ?_⟩
  · intro url q d hc hfind hdec
    unfold clean_google_url
    rw [hc]
    simp only [Bool.or_true, if_true]
    rw [hfind]
    exact hdec
  · intro url hc hhttp
    unfold clean_google_url
    rw [hc, startsWithS_false_of_containsSub_false hc]
    simp [hhttp]
  · intro url hc hhttp
    unfold clean_google_url
    rw [hc, startsWithS_false_of_containsSub_false hc]
    simp [hhttp]

/-- C4 witness: a concrete redirect-wrapper href is percent-decoded. -/
theorem clean_google_url_spec_witness :
    clean_google_url (strL "/url?q=https%3A%2F%2Fexample.com&sa=x")
      = some (strL "https://example.com") :=
  clean_google_url_spec.1 (strL "/url?q=https%3A%2F%2Fexample.com&sa=x")
    (strL "q=https%3A%2F%2Fexample.com") (strL "https://example.com")
    (by decide) (by decide) (by decide)

/-! ### C5: is_valid_url -/

/-- C5: `is_valid_url` is true iff the URL starts with "https://",
contains no denylisted substring and contains no query separator; in
particular every URL containing a denylisted substring is rejected,
regardless of its scheme. -/
theorem is_valid_url_spec (u : Str) :
    (is_valid_url u = true ↔
      (∃ t, u = strL "https://" ++ t) ∧
      (∀ p ∈ invalid_patterns, ¬ ∃ a b, u = a ++ p ++ b) ∧
      (¬ ∃ a b, u = a ++ strL "&" ++ b)) ∧
    (∀ p ∈ invalid_patterns, (∃ a b, u = a ++ p ++ b) → is_valid_url u = false) := by
  have hmain : is_valid_url u = true ↔
      (∃ t, u = strL "https://" ++ t) ∧
      (∀ p ∈ invalid_patterns, ¬ ∃ a b, u = a ++ p ++ b) ∧
      (¬ ∃ a b, u = a ++ strL "&" ++ b) := by
    simp only [is_valid_url, Bool.and_eq_true, Bool.not_eq_true', Bool.eq_false_iff,
      ne_eq, List.any_eq_true, not_exists, not_and, startsWithS_iff, containsSub_iff,
      and_assoc]
  refine ⟨hmain, ?_⟩
  intro p hp hdecomp
  cases h : is_valid_url u with
  | false => rfl
  | true => exact absurd hdecomp ((hmain.mp h).2.1 p hp)

/-- C5 witness: a denylisted substring is rejected even with the secure
scheme. -/
theorem is_valid_url_spec_witness :
    is_valid_url (strL "https://webcache.googleusercontent.com/a") = false :=
  (is_valid_url_spec (strL "https://webcache.googleusercontent.com/a")).2
    (strL "webcache.googleusercontent") (by decide)
    ⟨strL "https://", strL ".com/a", by decide⟩

/-! ### C6: extract_urls is sorted, duplicate-free and idempotent -/

theorem lexLe_refl (s : Str) : lexLe s s = true := by
  induction s with
  | nil => rfl
  | cons x xs ih => simp [lexLe, ih]

theorem lexLe_total (a b : Str) : lexLe a b = true ∨ lexLe b a = true := by
  induction a generalizing b with
  | nil => exact Or.inl rfl
  | cons x xs ih =>
    cases b with
    | nil => exact Or.inr rfl
    | cons y ys =>
      rcases lt_trichotomy x y with h | h | h
      · exact Or.inl (by simp [lexLe, h])
      · subst h
        rcases ih ys with h2 | h2
        · exact Or.inl (by simp [lexLe, lt_irrefl, h2])
        · exact Or.inr (by simp [lexLe, lt_irrefl, h2])
      · exact Or.inr (by simp [lexLe, h])

theorem lexLe_cons_iff (x y : Char) (xs ys : Str) :
    lexLe (x :: xs) (y :: ys) = true ↔ x < y ∨ (x = y ∧ lexLe xs ys = true) := by
  simp only [lexLe]
  rcases lt_trichotomy x y with h | h | h
  · simp [h]
  · subst h
    simp [lt_irrefl]
  · rw [if_neg (lt_asymm h), if_pos h]
    simp [lt_asymm h, ne_of_gt h]

theorem lexLe_trans (a b c : Str) (hab : lexLe a b = true) (hbc : lexLe b c = true) :
    lexLe a c = true := by
  induction a generalizing b c with
  | nil => rfl
  | cons x xs ih =>
    cases b with
    | nil => exact absurd hab (by simp [lexLe])
    | cons y ys =>
      cases c with
      | nil => exact absurd hbc (by simp [lexLe])
      | cons z zs =>
        refine (lexLe_cons_iff x z xs zs).mpr ?_
        rcases (lexLe_cons_iff x y xs ys).mp hab with hxy | ⟨hxy, hxs⟩
        · rcases (lexLe_cons_iff y z ys zs).mp hbc with hyz | ⟨hyz, _⟩
          · exact Or.inl (lt_trans hxy hyz)
          · exact Or.inl (hyz ▸ hxy)
        · rcases (lexLe_cons_iff y z ys zs).mp hbc with hyz | ⟨hyz, hys⟩
          · exact Or.inl (hxy ▸ hyz)
          · exact Or.inr ⟨hxy.trans hyz, ih ys zs hxs hys⟩

theorem lexLe_antisymm (a b : Str) (hab : lexLe a b = true) (hba : lexLe b a = true) :
    a = b := by
  induction a generalizing b with
  | nil =>
    cases b with
    | nil => rfl
    | cons y ys => exact absurd hba (by simp [lexLe])
  | cons x xs ih =>
    cases b with
    | nil => exact absurd hab (by simp [lexLe])
    | cons y ys =>
      rcases (lexLe_cons_iff x y xs ys).mp hab with hxy | ⟨hxy, hxs⟩
      · rcases (lexLe_cons_iff y x ys xs).mp hba with hyx | ⟨hyx, _⟩
        · exact absurd hyx (lt_asymm hxy)
        · exact absurd hyx.symm (ne_of_lt hxy)
      · rcases (lexLe_cons_iff y x ys xs).mp hba with hyx | ⟨_, hys⟩
        · exact absurd hxy (ne_of_gt hyx)
        · rw [hxy, ih ys hxs hys]

theorem mem_dedupAdj {l : List Str} {x : Str} (hx : x ∈ dedupAdj l) : x ∈ l := by
  induction l with
  | nil => exact absurd hx (by simp [dedupAdj])
  | cons a rest ih =>
    cases rest with
    | nil => simpa [dedupAdj] using hx
    | cons b rest2 =>
      simp only [dedupAdj] at hx
      by_cases hab : a = b
      · rw [if_pos hab] at hx
        exact List.mem_cons_of_mem a (ih hx)
      · rw [if_neg hab] at hx
        rcases List.mem_cons.mp hx with h | h
        · exact h ▸ List.mem_cons_self a _
        · exact List.mem_cons_of_mem a (ih h)

theorem dedupAdj_pairwise_of_sorted {l : List Str} (hs : l.Sorted strLe) :
    (dedupAdj l).Pairwise (fun a b => strLe a b ∧ a ≠ b) := by
  induction l with
  | nil => exact List.Pairwise.nil
  | cons a rest ih =>
    cases rest with
    | nil => simp [dedupAdj]
    | cons b rest2 =>
      have hpair := List.pairwise_cons.mp hs
      have htail : (b :: rest2).Sorted strLe := hpair.2
      simp only [dedupAdj]
      by_cases hab : a = b
      · rw [if_pos hab]
        exact ih htail
      · rw [if_neg hab]
        refine List.pairwise_cons.mpr ⟨?_, ih htail⟩
        intro z hz
        have hzmem : z ∈ b :: rest2 := mem_dedupAdj hz
        have haz : strLe a z := hpair.1 z hzmem
        refine ⟨haz, ?_⟩
        intro haz_eq
        rcases List.mem_cons.mp hzmem with hzb | hzrest
        · exact hab (haz_eq.trans hzb)
        · have hbz : strLe b z := (List.pairwise_cons.mp htail).1 z hzrest
          have hba : strLe b a := haz_eq ▸ hbz
          exact hab (lexLe_antisymm a b (hpair.1 b (List.mem_cons_self b _)) hba)

theorem dedupAdj_eq_self {l : List Str}
    (h : l.Pairwise (fun a b => strLe a b ∧ a ≠ b)) : dedupAdj l = l := by
  induction l with
  | nil => rfl
  | cons a rest ih =>
    cases rest with
    | nil => rfl
    | cons b rest2 =>
      have hpair := List.pairwise_cons.mp h
      have hab : a ≠ b := (hpair.1 b (List.mem_cons_self b _)).2
      simp only [dedupAdj, if_neg hab]
      rw [ih hpair.2]

/-- C6: for every search-results document, `extract_urls` is
lexicographically sorted and duplicate-free, and re-applying the
sort-then-adjacent-dedup normalization to its output changes nothing
(extraction is idempotent). -/
theorem extract_urls_sorted_nodup_idem (docHrefs : List (List Str)) :
    (extract_urls docHrefs).Sorted strLe ∧
    (extract_urls docHrefs).Nodup ∧
    dedupAdj (List.insertionSort strLe (extract_urls docHrefs)) = extract_urls docHrefs := by
  haveI : IsTotal Str strLe := ⟨lexLe_total⟩
  haveI : IsTrans Str strLe := ⟨lexLe_trans⟩
  have hsorted : (List.insertionSort strLe (candidate_urls docHrefs)).Sorted strLe :=
    List.sorted_insertionSort strLe (candidate_urls docHrefs)
  have hpair := dedupAdj_pairwise_of_sorted hsorted
  have hle : (extract_urls docHrefs).Sorted strLe := hpair.imp (fun h => h.1)
  have hnd : (extract_urls docHrefs).Nodup := hpair.imp (fun h => h.2)
  have hpair2 : (extract_urls docHrefs).Pairwise (fun a b => strLe a b ∧ a ≠ b) := hpair
  refine ⟨hle, hnd, ?_⟩
  rw [List.Sorted.insertionSort_eq hle]
  exact dedupAdj_eq_self hpair2

/-! ### Trim and join lemmas -/

theorem forall_mem_dropWhile_iff {p : Char → Bool} {l : Str} :
    (∀ x ∈ l.dropWhile p, p x = true) ↔ ∀ x ∈ l, p x = true := by
  constructor
  · intro h x hx
    rw [← List.takeWhile_append_dropWhile p l] at hx
    rcases List.mem_append.mp hx with h1 | h2
    · exact List.mem_takeWhile_imp h1
    · exact h x h2
  · intro h x hx
    exact h x ((List.dropWhile_sublist p).subset hx)

theorem trimS_eq_nil_iff (s : Str) : trimS s = [] ↔ ∀ c ∈ s, c.isWhitespace = true := by
  unfold trimS
  rw [List.reverse_eq_nil_iff, List.dropWhile_eq_nil_iff]
  constructor
  · intro h
    refine forall_mem_dropWhile_iff.mp ?_
    intro x hx
    exact h x (List.mem_reverse.mpr hx)
  · intro h x hx
    exact h x ((List.dropWhile_sublist _).subset (List.mem_reverse.mp hx))

theorem mem_joinWith {sep : Str} {l : List Str} {s : Str} (hs : s ∈ l) {c : Char}
    (hc : c ∈ s) : c ∈ joinWith sep l := by
  induction l with
  | nil => exact absurd hs (List.not_mem_nil s)
  | cons x rest ih =>
    cases rest with
    | nil =>
      rcases List.mem_singleton.mp hs with rfl
      simpa [joinWith] using hc
    | cons y rest2 =>
      simp only [joinWith, List.append_assoc, List.mem_append]
      rcases List.mem_cons.mp hs with rfl | htail
      · exact Or.inl hc
      · exact Or.inr (Or.inr (ih htail))

theorem chars_of_joinWith {sep : Str} {l : List Str} {c : Char}
    (hc : c ∈ joinWith sep l) : c ∈ sep ∨ ∃ s ∈ l, c ∈ s := by
  induction l with
  | nil => exact absurd hc (List.not_mem_nil c)
  | cons x rest ih =>
    cases rest with
    | nil =>
      simp only [joinWith] at hc
      exact Or.inr ⟨x, List.mem_singleton_self x, hc⟩
    | cons y rest2 =>
      simp only [joinWith, List.append_assoc, List.mem_append] at hc
      rcases hc with h1 | h2 | h3
      · exact Or.inr ⟨x, List.mem_cons_self x _, h1⟩
      · exact Or.inl h2
      · rcases ih h3 with hsep | ⟨s, hsl, hcs⟩
        · exact Or.inl hsep
        · exact Or.inr ⟨s, List.mem_cons_of_mem x hsl, hcs⟩

/-! ### C3: extract_content evaluates patterns in strict order -/

theorem etbs_eq_nil_iff (ts : List Str) :
    extract_text_by_selector ts = [] ↔ ∀ s ∈ ts, trimS s = [] := by
  unfold extract_text_by_selector
  constructor
  · intro h s hs
    by_contra hne
    have hsf : s ∈ ts.filter (fun s => !(trimS s).isEmpty) :=
      List.mem_filter.mpr ⟨hs, by simp [List.isEmpty_iff, hne]⟩
    have hnall : ¬ ∀ c ∈ s, c.isWhitespace = true :=
      fun hall => hne ((trimS_eq_nil_iff s).mpr hall)
    push_neg at hnall
    obtain ⟨c, hcs, hcw⟩ := hnall
    have hcj : c ∈ joinWith (strL "\n") (ts.filter (fun s => !(trimS s).isEmpty)) :=
      mem_joinWith hsf hcs
    exact hcw ((trimS_eq_nil_iff _).mp h c hcj)
  · intro h
    have hfil : ts.filter (fun s => !(trimS s).isEmpty) = [] :=
      List.filter_eq_nil_iff.mpr (fun s hs => by simp [List.isEmpty_iff, h s hs])
    rw [hfil]
    rfl

/-- C3: content extraction evaluates the pattern list in strict order and
returns the cleaned text of the first pattern whose selected node texts,
joined and trimmed, are non-empty; if every pattern yields only blank
text it fails with the extraction error.  A pattern's text is empty
exactly when all of its node texts are blank (third conjunct), so an
earlier blank pattern can never shadow a later one.  The last two
conjuncts state the same first-match discipline for the selector loop of
`SearchEngine::extract_text` (src/search.rs), which returns the trimmed
join without the cleaning step. -/
theorem extract_content_first_match_spec :
    (∀ pre sel post, (∀ s ∈ pre, extract_text_by_selector s = []) →
      extract_text_by_selector sel ≠ [] →
      extract_content (pre ++ sel :: post)
        = Except.ok (clean_text (extract_text_by_selector sel))) ∧
    (∀ docSel, (∀ s ∈ docSel, extract_text_by_selector s = []) →
      extract_content docSel = Except.error (ScraperError.ExtractionError
        (strL "No content found with available selectors"))) ∧
    (∀ ts, extract_text_by_selector ts = [] ↔ ∀ s ∈ ts, trimS s = []) ∧
    (∀ pre nodeTexts post, (∀ s ∈ pre, trimS (joinWith (strL "\n") s) = []) →
      trimS (joinWith (strL "\n") nodeTexts) ≠ [] →
      extract_text (pre ++ nodeTexts :: post)
        = Except.ok (trimS (joinWith (strL "\n") nodeTexts))) ∧
    (∀ docSel, (∀ s ∈ docSel, trimS (joinWith (strL "\n") s) = []) →
      extract_text docSel = Except.error
        (ScraperError.ExtractionError (strL "No content found"))) := by
  refine ⟨?_, ?_, etbs_eq_nil_iff, ?_, ?_⟩
  · intro pre sel post hpre hsel
    induction pre with
    | nil =>
      simp only [List.nil_append, extract_content]
      rw [if_neg (by simp [List.isEmpty_iff, hsel])]
    | cons p pre2 ih =>
      have hp : extract_text_by_selector p = [] := hpre p (List.mem_cons_self p _)
      simp only [List.cons_append, extract_content]
      rw [if_pos (by simp [List.isEmpty_iff, hp])]
      exact ih (fun s hs => hpre s (List.mem_cons_of_mem p hs))
  · intro docSel hall
    induction docSel with
    | nil => rfl
    | cons p rest ih =>
      have hp : extract_text_by_selector p = [] := hall p (List.mem_cons_self p _)
      simp only [extract_content]
      rw [if_pos (by simp [List.isEmpty_iff, hp])]
      exact ih (fun s hs => hall s (List.mem_cons_of_mem p hs))
  · intro pre nodeTexts post hpre hne
    induction pre with
    | nil =>
      simp only [List.nil_append, extract_text]
      rw [if_neg (by simp [List.isEmpty_iff, hne])]
    | cons p pre2 ih =>
      have hp : trimS (joinWith (strL "\n") p) = [] := hpre p (List.mem_cons_self p _)
      simp only [List.cons_append, extract_text]
      rw [if_pos (by simp [List.isEmpty_iff, hp])]
      exact ih (fun s hs => hpre s (List.mem_cons_of_mem p hs))
  · intro docSel hall
    induction docSel with
    | nil => rfl
    | cons p rest ih =>
      have hp : trimS (joinWith (strL "\n") p) = [] := hall p (List.mem_cons_self p _)
      simp only [extract_text]
      rw [if_pos (by simp [List.isEmpty_iff, hp])]
      exact ih (fun s hs => hall s (List.mem_cons_of_mem p hs))

/-- C3 witness: a document whose first pattern matches only blank text
and whose second pattern matches real text returns the second pattern's
cleaned text. -/
theorem extract_content_first_match_spec_witness :
    extract_content [[strL "  "], [strL "hello  world"]]
      = Except.ok (clean_text (extract_text_by_selector [strL "hello  world"])) :=
  extract_content_first_match_spec.1 [[strL "  "]] [strL "hello  world"] []
    (by intro s hs; rcases List.mem_singleton.mp hs with rfl; decide) (by decide)

/-! ### C7: clean_text -/

theorem splitWSAux_words (s : Str) (acc : Str) (hacc : ∀ c ∈ acc, c.isWhitespace = false) :
    ∀ w ∈ splitWSAux s acc, w ≠ [] ∧ ∀ c ∈ w, c.isWhitespace = false := by
  induction s generalizing acc with
  | nil =>
    intro w hw
    simp only [splitWSAux] at hw
    by_cases hne : acc.isEmpty
    · rw [if_pos hne] at hw
      exact absurd hw (List.not_mem_nil w)
    · rw [if_neg hne] at hw
      rcases List.mem_singleton.mp hw with rfl
      refine ⟨fun h => hne (by simp [List.isEmpty_iff, List.reverse_eq_nil_iff.mp h]), ?_⟩
      intro c hc
      exact hacc c (List.mem_reverse.mp hc)
  | cons c cs ih =>
    intro w hw
    simp only [splitWSAux] at hw
    by_cases hcw : c.isWhitespace
    · rw [if_pos hcw] at hw
      by_cases hne : acc.isEmpty
      · rw [if_pos hne] at hw
        exact ih [] (fun x hx => absurd hx (List.not_mem_nil x)) w hw
      · rw [if_neg hne] at hw
        rcases List.mem_cons.mp hw with rfl | htail
        · refine ⟨fun h => hne (by simp [List.isEmpty_iff, List.reverse_eq_nil_iff.mp h]), ?_⟩
          intro x hx
          exact hacc x (List.mem_reverse.mp hx)
        · exact ih [] (fun x hx => absurd hx (List.not_mem_nil x)) w htail
    · rw [if_neg hcw] at hw
      refine ih (c :: acc) ?_ w hw
      intro x hx
      rcases List.mem_cons.mp hx with rfl | hxa
      · exact Bool.eq_false_iff.mpr hcw
      · exact hacc x hxa

theorem splitWSAux_word_chars (w : Str) (hw : ∀ c ∈ w, c.isWhitespace = false) :
    ∀ s acc, splitWSAux (w ++ s) acc = splitWSAux s (w.reverse ++ acc) := by
  induction w with
  | nil => intro s acc; simp
  | cons c w2 ih =>
    intro s acc
    have hcw : c.isWhitespace = false := hw c (List.mem_cons_self c _)
    simp only [List.cons_append, splitWSAux, hcw, Bool.false_eq_true, if_false,
      List.append_eq]
    rw [ih (fun x hx => hw x (List.mem_cons_of_mem c hx)) s (c :: acc)]
    simp [List.reverse_cons, List.append_assoc]

theorem splitWSAux_space (s : Str) (acc : Str) (hacc : ¬acc.isEmpty = true) :
    splitWSAux (' ' :: s) acc = acc.reverse :: splitWS s := by
  simp only [splitWSAux, if_neg hacc, if_pos (by decide : (' ').isWhitespace = true)]
  rfl

theorem splitWS_joinWith (ws : List Str)
    (h : ∀ w ∈ ws, w ≠ [] ∧ ∀ c ∈ w, c.isWhitespace = false) :
    splitWS (joinWith (strL " ") ws) = ws := by
  induction ws with
  | nil => rfl
  | cons w rest ih =>
    have hw := h w (List.mem_cons_self w _)
    cases rest with
    | nil =>
      show splitWSAux (joinWith (strL " ") [w]) [] = [w]
      have : joinWith (strL " ") [w] = w ++ [] := by simp [joinWith]
      rw [this, splitWSAux_word_chars w hw.2 [] []]
      simp only [splitWSAux, List.append_nil]
      rw [if_neg (by simp [List.isEmpty_iff, List.reverse_eq_nil_iff, hw.1])]
      simp
    | cons y rest2 =>
      have hjoin : joinWith (strL " ") (w :: y :: rest2)
          = w ++ (' ' :: joinWith (strL " ") (y :: rest2)) := by
        simp [joinWith, strL, List.append_assoc]
      show splitWSAux (joinWith (strL " ") (w :: y :: rest2)) [] = w :: y :: rest2
      rw [hjoin, splitWSAux_word_chars w hw.2 _ [],
        splitWSAux_space _ _ (by simp [List.isEmpty_iff, List.reverse_eq_nil_iff, hw.1])]
      rw [ih (fun x hx => h x (List.mem_cons_of_mem w hx))]
      simp

/-- C7 counterexample: on the two-line input "a\nb" the code's cleaning
step returns "a b" — it does not preserve line structure, while the
claimed cleaning (blank-line drop, per-line collapse, newline re-join)
returns "a\nb" unchanged. -/
theorem clean_text_line_structure_cex :
    clean_text (strL "a\nb") = strL "a b" ∧
    cleanTextSpec (strL "a\nb") = strL "a\nb" ∧
    clean_text (strL "a\nb") ≠ cleanTextSpec (strL "a\nb") := by decide

/-- C7 amended: the cleaning step keeps only ASCII-or-whitespace
characters and collapses every whitespace run — newlines included — to a
single space: the whitespace-separated words of the output are exactly
those of the filtered input, and the only whitespace character the
output can contain is a space.  Line structure is not preserved. -/
theorem clean_text_collapses_whitespace (t : Str) :
    splitWS (clean_text t) = splitWS (t.filter (fun c => isAsciiC c || c.isWhitespace)) ∧
    ∀ c ∈ clean_text t, c.isWhitespace = true → c = ' ' := by
  have hwords := splitWSAux_words (t.filter (fun c => isAsciiC c || c.isWhitespace)) []
    (fun x hx => absurd hx (List.not_mem_nil x))
  constructor
  · exact splitWS_joinWith _ hwords
  · intro c hc hws
    unfold clean_text at hc
    rcases chars_of_joinWith hc with hsep | ⟨s, hsl, hcs⟩
    · simpa [strL] using hsep
    · have hnw := (hwords s hsl).2 c hcs
      exact absurd hws (by simp [hnw])

/-- C7 amended witness at the concrete input "a\nb". -/
theorem clean_text_collapses_whitespace_witness :
    splitWS (clean_text (strL "a\nb"))
      = splitWS ((strL "a\nb").filter (fun c => isAsciiC c || c.isWhitespace)) ∧
    (' ' : Char) = ' ' :=
  ⟨(clean_text_collapses_whitespace (strL "a\nb")).1,
   (clean_text_collapses_whitespace (strL "a\nb")).2 ' ' (by decide) (by decide)⟩

/-! ### C8: metadata extraction -/

/-- C8 counterexample: a field whose first node carries an *empty*
`content` attribute and has blank text yields no non-empty text from
either source, yet the field is present in the result map with the empty
value — it is not absent as claimed. -/
theorem extract_metadata_empty_content_attr_cex :
    (MNode.mk (some []) []).contentAttr = some [] ∧
    trimS (joinWith (strL " ") (MNode.mk (some []) []).text) = [] ∧
    extract_metadata [(strL "k", [MNode.mk (some []) []])] = [(strL "k", [])] ∧
    extract_metadata [(strL "k", [MNode.mk (some []) []])] ≠ [] := by decide

/-- C8 amended: metadata extraction takes the first node matching the
field's selector; if that node carries a `content` attribute its value is
used — preferred over any text fallback and even when empty, so the field
can be present with an empty value; otherwise the node's trimmed text is
used when non-blank; the field is absent exactly when no matching node
supplies a value; extraction is total (never fails). -/
theorem extract_metadata_value_spec :
    (∀ el rest c, el.contentAttr = some c →
      extract_metadata_value (el :: rest) = some c) ∧
    (∀ el rest, el.contentAttr = none →
      trimS (joinWith (strL " ") el.text) ≠ [] →
      extract_metadata_value (el :: rest)
        = some (trimS (joinWith (strL " ") el.text))) ∧
    (∀ el rest, el.contentAttr = none →
      trimS (joinWith (strL " ") el.text) = [] →
      extract_metadata_value (el :: rest) = none) ∧
    extract_metadata_value [] = none ∧
    (∀ fields k v, (k, v) ∈ extract_metadata fields ↔
      ∃ nodes, (k, nodes) ∈ fields ∧ extract_metadata_value nodes = some v) := by
  refine ⟨?_, ?_, ?_, rfl, ?_⟩
  · intro el rest c hattr
    simp only [extract_metadata_value, hattr]
  · intro el rest hattr hne
    simp only [extract_metadata_value, hattr]
    rw [if_neg (by simp [List.isEmpty_iff, hne])]
  · intro el rest hattr hnil
    simp only [extract_metadata_value, hattr]
    rw [if_pos (by simp [List.isEmpty_iff, hnil])]
  · intro fields k v
    simp only [extract_metadata, List.mem_filterMap, Option.map_eq_some']
    constructor
    · rintro ⟨⟨k2, nodes⟩, hmem, v0, hval, heq⟩
      obtain ⟨hk, hv⟩ := Prod.mk.injEq _ _ _ _ ▸ heq
      exact ⟨nodes, by rwa [← hk], by rwa [← hv]⟩
    · rintro ⟨nodes, hmem, hval⟩
      exact ⟨(k, nodes), hmem, v, hval, rfl⟩

/-- C8 amended witness: a non-empty `content` attribute is preferred over
non-blank node text. -/
theorem extract_metadata_value_spec_witness :
    extract_metadata_value [MNode.mk (some (strL "v")) [strL "w"]] = some (strL "v") :=
  extract_metadata_value_spec.1 (MNode.mk (some (strL "v")) [strL "w"]) [] (strL "v") rfl

/-! ### C1: permit and pacing are per URL, not per attempt -/

theorem retryTrace_events (stub : Nat → Bool) (maxR : Nat) :
    ∀ fuel r, ∀ e ∈ retryTrace stub maxR fuel r,
      (∃ i, e = Ev.attempt i) ∨ (∃ k, e = Ev.backoff k) := by
  intro fuel
  induction fuel with
  | zero =>
    intro r e he
    exact absurd he (List.not_mem_nil e)
  | succ f ih =>
    intro r e he
    simp only [retryTrace] at he
    by_cases hr : r < maxR
    · rw [if_pos hr] at he
      rcases List.mem_cons.mp he with rfl | htail
      · exact Or.inl ⟨r + 1, rfl⟩
      · by_cases hs : stub (r + 1)
        · rw [if_pos hs] at htail
          exact absurd htail (List.not_mem_nil e)
        · rw [if_neg hs] at htail
          by_cases hr2 : r + 1 < maxR
          · rw [if_pos hr2] at htail
            rcases List.mem_cons.mp htail with rfl | ht2
            · exact Or.inr ⟨2 ^ (r + 1), rfl⟩
            · exact ih (r + 1) e ht2
          · rw [if_neg hr2] at htail
            exact ih (r + 1) e htail
    · rw [if_neg hr] at he
      exact absurd he (List.not_mem_nil e)

/-- C1 counterexample: with two attempts configured and a stub that
always fails, the per-URL trace contains two HTTP GET attempts but only
one pacing delay and one permit acquisition — so a pacing delay does
*not* precede every attempt. -/
theorem rate_pacing_not_per_attempt_cex :
    (perUrlTrace (fun _ => false) 2).countP isAttemptEv = 2 ∧
    (perUrlTrace (fun _ => false) 2).count Ev.pace = 1 ∧
    (perUrlTrace (fun _ => false) 2).count Ev.permit = 1 ∧
    ¬((perUrlTrace (fun _ => false) 2).countP isAttemptEv
        ≤ (perUrlTrace (fun _ => false) 2).count Ev.pace) := by decide

/-- C1 amended: for every URL, exactly one rate-limiter permit is
acquired and exactly one pacing delay of `1/requests_per_second` seconds
elapses, both before the first HTTP GET attempt; retry attempts are
preceded only by backoff sleeps — the retry loop emits no further permit
or pacing events. -/
theorem rate_pacing_once_per_url (stub : Nat → Bool) (maxR : Nat) :
    perUrlTrace stub maxR = Ev.permit :: Ev.pace :: fetchContentTrace stub maxR ∧
    (perUrlTrace stub maxR).count Ev.pace = 1 ∧
    (perUrlTrace stub maxR).count Ev.permit = 1 ∧
    ∀ e ∈ fetchContentTrace stub maxR,
      (∃ i, e = Ev.attempt i) ∨ (∃ k, e = Ev.backoff k) := by
  have hev := retryTrace_events stub maxR maxR 0
  have hpace : Ev.pace ∉ fetchContentTrace stub maxR := by
    intro hmem
    rcases hev Ev.pace hmem with ⟨i, h⟩ | ⟨k, h⟩ <;> exact Ev.noConfusion h
  have hpermit : Ev.permit ∉ fetchContentTrace stub maxR := by
    intro hmem
    rcases hev Ev.permit hmem with ⟨i, h⟩ | ⟨k, h⟩ <;> exact Ev.noConfusion h
  refine ⟨rfl, ?_, ?_, hev⟩
  · simp [perUrlTrace, List.count_cons, List.count_eq_zero.mpr hpace]
  · simp [perUrlTrace, List.count_cons, List.count_eq_zero.mpr hpermit]

/-- C1 amended witness at a concrete always-failing stub. -/
theorem rate_pacing_once_per_url_witness :
    (perUrlTrace (fun _ => false) 2).count Ev.pace = 1 ∧
    ((∃ i, Ev.backoff 2 = Ev.attempt i) ∨ (∃ k, Ev.backoff 2 = Ev.backoff k)) :=
  ⟨(rate_pacing_once_per_url (fun _ => false) 2).2.1,
   (rate_pacing_once_per_url (fun _ => false) 2).2.2.2 (Ev.backoff 2) (by decide)⟩

/-! ### C2: retry, backoff and last-error semantics of fetch_content -/

theorem fetchLoop_all_fail (stub : Nat → Except ScraperError ScrapedContent)
    (err : Nat → ScraperError) (hstub : ∀ i, stub i = Except.error (err i)) (maxR : Nat) :
    ∀ fuel r lastError, fuel + r = maxR → 1 ≤ fuel →
      fetchLoop stub maxR fuel r lastError
        = (Except.error (err maxR), fuel,
           ((List.range' (r + 1) (fuel - 1)).map (fun i => 2 ^ i)).sum) := by
  intro fuel
  induction fuel with
  | zero =>
    intro r lastError hsum h1
    omega
  | succ f ih =>
    intro r lastError hsum h1
    have hr : r < maxR := by omega
    by_cases hf : f = 0
    · subst hf
      have hrm : r + 1 = maxR := by omega
      simp only [fetchLoop, if_pos hr, hstub (r + 1)]
      rw [if_neg (by omega : ¬r + 1 < maxR)]
      simp [retriesExhausted, hrm]
    · have h1f : 1 ≤ f := by omega
      have hlt : r + 1 < maxR := by omega
      simp only [fetchLoop, if_pos hr, hstub (r + 1)]
      rw [ih (r + 1) (some (err (r + 1))) (by omega) h1f, if_pos hlt]
      have hfsplit : f = (f - 1) + 1 := by omega
      refine Prod.ext rfl (Prod.ext rfl ?_)
      show ((List.range' (r + 1 + 1) (f - 1)).map (fun i => 2 ^ i)).sum + 2 ^ (r + 1)
      = ((List.range' (r + 1) (f + 1 - 1)).map (fun i => 2 ^ i)).sum
      rw [show f + 1 - 1 = (f - 1) + 1 from by omega, List.range'_succ]
      simp [Nat.add_comm]

theorem fetchLoop_succeeds (stub : Nat → Except ScraperError ScrapedContent)
    (err : Nat → ScraperError) (k : Nat) (c : ScrapedContent)
    (hfail : ∀ i, 1 ≤ i → i ≤ k → stub i = Except.error (err i))
    (hok : stub (k + 1) = Except.ok c) (maxR : Nat) (hk : k + 1 ≤ maxR) :
    ∀ fuel r lastError, fuel + r = maxR → r ≤ k →
      fetchLoop stub maxR fuel r lastError
        = (Except.ok c, k + 1 - r, ((List.range' (r + 1) (k - r)).map (fun i => 2 ^ i)).sum) := by
  intro fuel
  induction fuel with
  | zero =>
    intro r lastError hsum hrk
    omega
  | succ f ih =>
    intro r lastError hsum hrk
    have hr : r < maxR := by omega
    by_cases hreq : r = k
    · subst hreq
      simp only [fetchLoop, if_pos hr, hok]
      simp
    · have hrk2 : r < k := lt_of_le_of_ne hrk hreq
      have hstep : stub (r + 1) = Except.error (err (r + 1)) :=
        hfail (r + 1) (by omega) (by omega)
      have hlt : r + 1 < maxR := by omega
      simp only [fetchLoop, if_pos hr, hstep]
      rw [ih (r + 1) (some (err (r + 1))) (by omega) (by omega), if_pos hlt]
      dsimp only
      refine Prod.ext rfl (Prod.ext (by dsimp only; omega) ?_)
      show ((List.range' (r + 1 + 1) (k - (r + 1))).map (fun i => 2 ^ i)).sum + 2 ^ (r + 1)
      = ((List.range' (r + 1) (k - r)).map (fun i => 2 ^ i)).sum
      rw [show k - r = (k - (r + 1)) + 1 from by omega, List.range'_succ]
      simp [Nat.add_comm]

/-- C2: when every attempt fails, `fetch_content` performs exactly
`max_retries` attempts, sleeps `2^r` seconds after the r-th failed
attempt for r from 1 while `r < max_retries` (total backoff
`sum(2^i, i in 1..max_retries-1)`, so no sleep after the final attempt)
and returns the last observed error; when the first k attempts fail and
attempt k+1 succeeds (with `k+1 ≤ max_retries`), it returns that success
after exactly k+1 attempts having slept `sum(2^i, i in 1..k)` seconds. -/
theorem fetch_content_retry_spec :
    (∀ (stub : Nat → Except ScraperError ScrapedContent) (err : Nat → ScraperError)
      (maxR : Nat), 1 ≤ maxR → (∀ i, stub i = Except.error (err i)) →
      fetch_content stub maxR
        = (Except.error (err maxR), maxR,
           ((List.range' 1 (maxR - 1)).map (fun i => 2 ^ i)).sum)) ∧
    (∀ (stub : Nat → Except ScraperError ScrapedContent) (err : Nat → ScraperError)
      (k : Nat) (c : ScrapedContent) (maxR : Nat),
      (∀ i, 1 ≤ i → i ≤ k → stub i = Except.error (err i)) →
      stub (k + 1) = Except.ok c → k + 1 ≤ maxR →
      fetch_content stub maxR
        = (Except.ok c, k + 1, ((List.range' 1 k).map (fun i => 2 ^ i)).sum)) := by
  constructor
  · intro stub err maxR h1 hstub
    exact fetchLoop_all_fail stub err hstub maxR maxR 0 none (by omega) h1
  · intro stub err k c maxR hfail hok hk
    exact fetchLoop_succeeds stub err k c hfail hok maxR hk maxR 0 none (by omega) (by omega)

/-- C2 witness: a stub failing all three allowed attempts yields the
third attempt's error after 3 attempts and 2^1 + 2^2 = 6 seconds of
backoff. -/
theorem fetch_content_retry_spec_witness :
    fetch_content (fun i => Except.error (ScraperError.RequestError i)) 3
      = (Except.error (ScraperError.RequestError 3), 3,
         ((List.range' 1 2).map (fun i => 2 ^ i)).sum) :=
  fetch_content_retry_spec.1 (fun i => Except.error (ScraperError.RequestError i))
    (fun i => ScraperError.RequestError i) 3 (by omega) (fun i => rfl)

/-! ### C10: zero configured retries -/

/-- C10: with `max_retries = 0` the retry loop never runs: no HTTP
attempt is made (attempt count 0, no backoff) and the result is the
fallback `ExtractionError "Max retries exceeded"`, not fetched content
or a transport error. -/
theorem fetch_content_zero_retries (stub : Nat → Except ScraperError ScrapedContent) :
    fetch_content stub 0
      = (Except.error (ScraperError.ExtractionError (strL "Max retries exceeded")), 0, 0) := rfl

/-! ### C9: fetch_all absorbs all per-URL failures -/

theorem fetchOne_eq_some {results : Str → Except ScraperError ScrapedContent} {url : Str}
    {c : ScrapedContent} : fetchOne results url = some c ↔ results url = Except.ok c := by
  unfold fetchOne
  cases h : results url <;> simp

/-- C9: `fetch_all` returns `Ok` with exactly the scraped records of the
URLs whose fetch succeeded; every per-URL failure is dropped from the
output and never surfaces as an error — in particular the result is
`Ok []` when every fetch fails (and when the URL list is empty). -/
theorem fetch_all_absorbs_failures (results : Str → Except ScraperError ScrapedContent)
    (urls : List Str) :
    fetch_all results urls = Except.ok (urls.filterMap (fetchOne results)) ∧
    (∀ c, c ∈ urls.filterMap (fetchOne results) ↔ ∃ u ∈ urls, results u = Except.ok c) ∧
    ((∀ u ∈ urls, fetchOne results u = none) → fetch_all results urls = Except.ok []) := by
  have h1 : fetch_all results urls = Except.ok (urls.filterMap (fetchOne results)) := by
    unfold fetch_all
    rw [List.filterMap_map]
    simp
  refine ⟨h1, ?_, ?_⟩
  · intro c
    simp [List.mem_filterMap, fetchOne_eq_some]
  · intro hall
    rw [h1, List.filterMap_eq_nil_iff.mpr hall]

/-- C9 witness: a single URL whose fetch fails yields `Ok []`. -/
theorem fetch_all_absorbs_failures_witness :
    fetch_all (fun _ => Except.error (ScraperError.RequestError 0)) [strL "https://a.com"]
      = Except.ok [] :=
  (fetch_all_absorbs_failures (fun _ => Except.error (ScraperError.RequestError 0))
    [strL "https://a.com"]).2.2 (fun _ _ => rfl)

end Sollama
